import Mathlib

set_option maxRecDepth 100000

/-
Verification development for the pow_rs proof-of-work miner (src/main.rs).

Strings are modelled as lists of byte values (Nat), matching the Rust code's
use of `data.as_bytes()` and UTF-8 `String`s.  Machine integers (u64, u32)
are modelled as Nat with explicit `% 2 ^ w` where wrapping matters.
-/

/-- Truncate a natural number to 32 bits, mirroring u32 wrapping arithmetic
as performed inside the SHA-256 compression function of the sha2 crate. -/
def w32 (x : Nat) : Nat := x % 4294967296

/-- Rotate a 32-bit word right by n bits. -/
def rotr32 (n x : Nat) : Nat := w32 ((x >>> n) ||| (x <<< (32 - n)))

/-- Choice function of the SHA-256 round. -/
def chF (x y z : Nat) : Nat := (x &&& y) ^^^ ((x ^^^ 4294967295) &&& z)

/-- Majority function of the SHA-256 round. -/
def majF (x y z : Nat) : Nat := (x &&& y) ^^^ (x &&& z) ^^^ (y &&& z)

/-- Big sigma-0 of SHA-256. -/
def bsig0 (x : Nat) : Nat := rotr32 2 x ^^^ rotr32 13 x ^^^ rotr32 22 x

/-- Big sigma-1 of SHA-256. -/
def bsig1 (x : Nat) : Nat := rotr32 6 x ^^^ rotr32 11 x ^^^ rotr32 25 x

/-- Small sigma-0 of SHA-256 (message schedule). -/
def ssig0 (x : Nat) : Nat := rotr32 7 x ^^^ rotr32 18 x ^^^ (x >>> 3)

/-- Small sigma-1 of SHA-256 (message schedule). -/
def ssig1 (x : Nat) : Nat := rotr32 17 x ^^^ rotr32 19 x ^^^ (x >>> 10)

/-- Round constants of SHA-256 (FIPS 180-4), written in decimal. -/
def shaK : List Nat :=
  [1116352408, 1899447441, 3049323471, 3921009573, 961987163,
   1508970993, 2453635748, 2870763221, 3624381080, 310598401,
   607225278, 1426881987, 1925078388, 2162078206, 2614888103,
   3248222580, 3835390401, 4022224774, 264347078, 604807628,
   770255983, 1249150122, 1555081692, 1996064986, 2554220882,
   2821834349, 2952996808, 3210313671, 3336571891, 3584528711,
   113926993, 338241895, 666307205, 773529912, 1294757372,
   1396182291, 1695183700, 1986661051, 2177026350, 2456956037,
   2730485921, 2820302411, 3259730800, 3345764771, 3516065817,
   3600352804, 4094571909, 275423344, 430227734, 506948616,
   659060556, 883997877, 958139571, 1322822218, 1537002063,
   1747873779, 1955562222, 2024104815, 2227730452, 2361852424,
   2428436474, 2756734187, 3204031479, 3329325298]

/-- Eight 32-bit hash words of the SHA-256 state. -/
structure Hash8 where
  a : Nat
  b : Nat
  c : Nat
  d : Nat
  e : Nat
  f : Nat
  g : Nat
  h : Nat

/-- Initial hash value of SHA-256 (FIPS 180-4), written in decimal. -/
def shaH0 : Hash8 :=
  ⟨1779033703, 3144134277, 1013904242, 2773480762,
   1359893119, 2600822924, 528734635, 1541459225⟩

/-- One round of the SHA-256 compression function on the working variables. -/
def roundF (v : Hash8) (kt wt : Nat) : Hash8 :=
  let t1 := w32 (v.h + bsig1 v.e + chF v.e v.f v.g + kt + wt)
  let t2 := w32 (bsig0 v.a + majF v.a v.b v.c)
  ⟨w32 (t1 + t2), v.a, v.b, v.c, w32 (v.d + t1), v.e, v.f, v.g⟩

/-- Message schedule W[0..63] of a 16-word block. -/
def msgSchedule (blk : List Nat) : List Nat :=
  (List.range 64).foldl (fun ws t =>
    if t < 16 then ws ++ [blk.getD t 0]
    else ws ++ [w32 (ssig1 (ws.getD (t - 2) 0) + ws.getD (t - 7) 0 +
                     ssig0 (ws.getD (t - 15) 0) + ws.getD (t - 16) 0)]) []

/-- Compress one 16-word block into the running hash value. -/
def compressBlock (hv : Hash8) (blk : List Nat) : Hash8 :=
  let ws := msgSchedule blk
  let v := (List.range 64).foldl (fun v t => roundF v (shaK.getD t 0) (ws.getD t 0)) hv
  ⟨w32 (hv.a + v.a), w32 (hv.b + v.b), w32 (hv.c + v.c), w32 (hv.d + v.d),
   w32 (hv.e + v.e), w32 (hv.f + v.f), w32 (hv.g + v.g), w32 (hv.h + v.h)⟩

/-- Big-endian 8-byte rendering of the 64-bit message bit length. -/
def lenBE8 (n : Nat) : List Nat :=
  [n / 2 ^ 56 % 256, n / 2 ^ 48 % 256, n / 2 ^ 40 % 256, n / 2 ^ 32 % 256,
   n / 2 ^ 24 % 256, n / 2 ^ 16 % 256, n / 2 ^ 8 % 256, n % 256]

/-- SHA-256 padding: append 0x80, zero bytes to 56 mod 64, and the bit length. -/
def padMsg (msg : List Nat) : List Nat :=
  msg ++ 128 :: (List.replicate ((119 - msg.length % 64) % 64) 0 ++ lenBE8 (8 * msg.length))

/-- Group bytes into big-endian 32-bit words. -/
def bytesToWords : List Nat → List Nat
  | b0 :: b1 :: b2 :: b3 :: rest =>
      (b0 * 16777216 + b1 * 65536 + b2 * 256 + b3) :: bytesToWords rest
  | _ => []

/-- Fold the compression function over all 16-word blocks (fuel-indexed so the
definition is structural; the fuel is always at least the number of blocks). -/
def processBlocks : Nat → Hash8 → List Nat → Hash8
  | 0, hv, _ => hv
  | fuel + 1, hv, ws =>
    match ws with
    | [] => hv
    | _ => processBlocks fuel (compressBlock hv (ws.take 16)) (ws.drop 16)

/-- Big-endian byte rendering of one 32-bit word. -/
def wordBE (w : Nat) : List Nat := [w / 16777216 % 256, w / 65536 % 256, w / 256 % 256, w % 256]

/-- Concatenate the eight hash words into the 32-byte digest. -/
def hash8ToBytes (hv : Hash8) : List Nat :=
  wordBE hv.a ++ (wordBE hv.b ++ (wordBE hv.c ++ (wordBE hv.d ++
  (wordBE hv.e ++ (wordBE hv.f ++ (wordBE hv.g ++ wordBE hv.h))))))

/-- SHA-256 of a byte string, as computed by the sha2 crate's Sha256. -/
def sha256 (msg : List Nat) : List Nat :=
  let ws := bytesToWords (padMsg msg)
  hash8ToBytes (processBlocks ws.length shaH0 ws)

/-- ASCII code of the lowercase hex digit for a nibble, as produced by
hex::encode. -/
def hexDigitCode (n : Nat) : Nat := if n < 10 then 48 + n else 87 + n

/-- Lowercase hexadecimal rendering of a byte string (hex::encode), as a
list of ASCII codes. -/
def hexEncode (bs : List Nat) : List Nat :=
  bs.flatMap fun b => [hexDigitCode (b / 16), hexDigitCode (b % 16)]

/-- Accumulator-passing decimal rendering, fuel-indexed (the fuel n+1 always
suffices for n). -/
def decDigitsCore : Nat → Nat → List Nat → List Nat
  | 0, _, acc => acc
  | fuel + 1, n, acc =>
    if n < 10 then (48 + n) :: acc else decDigitsCore fuel (n / 10) ((48 + n % 10) :: acc)

/-- ASCII bytes of the decimal rendering of a u64, as produced by Display
for u64 inside format!. -/
def decBytes (n : Nat) : List Nat := decDigitsCore (n + 1) n []

/-- ASCII codes of a Lean string literal, used to state concrete test
vectors conveniently. -/
def asciiBytes (s : String) : List Nat := s.data.map Char.toNat

/-
Embedding of mine_range (src/main.rs, lines 103-155).

The hasher (sha2's Sha256) is modelled statefully: its state is the list of
bytes absorbed since the last reset, so that the reset/update/finalize_reset
discipline of the loop body is visible and provable to leak no state across
iterations.

The shared stop flag is modelled by an oracle flag : Nat → Bool giving the
value returned by the k-th atomic load this worker performs; an arbitrary
oracle over-approximates every interleaving with the other threads.  The
shared counter field records the sum of this worker's fetch_add
contributions.  The channel send is modelled by the sent field.
-/

/-- Configuration of one worker: prefix bytes, difficulty, and the inclusive
upper bound of its nonce range. -/
structure MineCfg where
  pb : List Nat
  diff : Nat
  endN : Nat

/-- Mutable state of the mine_range loop.  attempts counts hash computations
(a ghost field for specification only); reads counts atomic loads of the
stop flag; buf is the hasher's absorbed-byte buffer. -/
structure MineState where
  nonce : Nat
  buf : List Nat
  localCnt : Nat
  shared : Nat
  sent : Option (Nat × List Nat)
  reads : Nat
  attempts : Nat
  halted : Bool
deriving DecidableEq

/-- Model of Sha256::reset: the absorbed buffer becomes empty. -/
def hasherReset (_buf : List Nat) : List Nat := []

/-- Model of Sha256::update: bytes are appended to the absorbed buffer. -/
def hasherUpdate (buf data : List Nat) : List Nat := buf ++ data

/-- Model of Sha256::finalize_reset: digest of the absorbed bytes, and an
emptied buffer. -/
def hasherFinalizeReset (buf : List Nat) : List Nat × List Nat := (sha256 buf, [])

/-- The target string "0".repeat(difficulty), as ASCII bytes. -/
def targetZeros (cfg : MineCfg) : List Nat := List.replicate cfg.diff 48

/-- Bytes hashed for a candidate nonce: format!("{}{}", prefix, nonce). -/
def iterData (cfg : MineCfg) (n : Nat) : List Nat := cfg.pb ++ decBytes n

/-- Lowercase hex digest of prefix + decimal(nonce), the hash_hex of the loop
body. -/
def hexAt (cfg : MineCfg) (n : Nat) : List Nat := hexEncode (sha256 (iterData cfg n))

/-- The match predicate: hash_hex.starts_with(target_prefix). -/
def matchAt (cfg : MineCfg) (n : Nat) : Bool := (targetZeros cfg).isPrefixOf (hexAt cfg n)

/-- The hash_hex computed by one loop body from the incoming hasher state:
reset the hasher, update it with prefix + decimal(nonce), finalize, and
render the digest as lowercase hex. -/
def hashHexOf (cfg : MineCfg) (buf : List Nat) (n : Nat) : List Nat :=
  hexEncode (hasherFinalizeReset (hasherUpdate (hasherReset buf) (iterData cfg n))).1

/-- The hasher state left behind by one loop body (finalize_reset empties it). -/
def bufAfter (cfg : MineCfg) (buf : List Nat) (n : Nat) : List Nat :=
  (hasherFinalizeReset (hasherUpdate (hasherReset buf) (iterData cfg n))).2

/-- Exit of the scan loop: flush the remaining local count into the shared
counter (the code guards the fetch_add with local_hash_count > 0). -/
def exitFlush (s : MineState) : MineState :=
  { s with shared := if 0 < s.localCnt then s.shared + s.localCnt else s.shared,
           localCnt := 0, halted := true }

/-- One iteration of the while loop of mine_range (or the exit transition).
Branches, in source order: loop already exited; range exhausted (the while
condition's first conjunct, which short-circuits before any flag load); stop
flag observed at the top of the loop; match found (store flag, send, break);
batch boundary reached after the increment pair, flushing the local count
and re-checking the stop flag; plain advance to the next nonce.  Halted
states are fixed points. -/
def mineStep (cfg : MineCfg) (flag : Nat → Bool) (s : MineState) : MineState :=
  if s.halted then s
  else if s.nonce ≤ cfg.endN then
    if flag s.reads then
      exitFlush { s with reads := s.reads + 1 }
    else if (targetZeros cfg).isPrefixOf (hashHexOf cfg s.buf s.nonce) then
      exitFlush { s with
        reads := s.reads + 1, buf := bufAfter cfg s.buf s.nonce,
        attempts := s.attempts + 1,
        sent := some (s.nonce, hashHexOf cfg s.buf s.nonce) }
    else if (s.localCnt + 1) % 100000 = 0 then
      if flag (s.reads + 1) then
        exitFlush { s with
          reads := s.reads + 2, buf := bufAfter cfg s.buf s.nonce,
          attempts := s.attempts + 1, nonce := (s.nonce + 1) % 18446744073709551616,
          shared := s.shared + (s.localCnt + 1), localCnt := 0 }
      else
        { s with
          reads := s.reads + 2, buf := bufAfter cfg s.buf s.nonce,
          attempts := s.attempts + 1, nonce := (s.nonce + 1) % 18446744073709551616,
          shared := s.shared + (s.localCnt + 1), localCnt := 0 }
    else
      { s with
        reads := s.reads + 1, buf := bufAfter cfg s.buf s.nonce,
        attempts := s.attempts + 1, nonce := (s.nonce + 1) % 18446744073709551616,
        localCnt := s.localCnt + 1 }
  else exitFlush s

/-- Iterate the loop for a given number of steps (fuel). -/
def mineRun (cfg : MineCfg) (flag : Nat → Bool) : Nat → MineState → MineState
  | 0, s => s
  | fuel + 1, s => mineRun cfg flag fuel (mineStep cfg flag s)

/-- Entry state of mine_range for a range starting at start: a fresh hasher,
zero counters, nothing sent. -/
def mineInit (start : Nat) : MineState :=
  { nonce := start, buf := [], localCnt := 0, shared := 0, sent := none,
    reads := 0, attempts := 0, halted := false }

/-- Stop-flag oracle that always reads false (no other worker ever finds a
match). -/
def flagF : Nat → Bool := fun _ => false

/-- Stop-flag oracle that always reads true. -/
def flagT : Nat → Bool := fun _ => true

/-
Work partitioner of main (src/main.rs, lines 41 and 71-76): with n workers,
chunk_size = u64::MAX / n; worker i gets [i * chunk_size, (i+1) * chunk_size - 1]
and the last worker gets [(n-1) * chunk_size, u64::MAX].
-/

/-- chunk_size = u64::MAX / num_threads. -/
def chunkSize (n : Nat) : Nat := 18446744073709551615 / n

/-- Start of worker i's range: i as u64 * chunk_size. -/
def wStart (n i : Nat) : Nat := i * chunkSize n

/-- End of worker i's range: u64::MAX for the last worker, else
(i + 1) * chunk_size - 1. -/
def wEnd (n i : Nat) : Nat :=
  if i = n - 1 then 18446744073709551615 else (i + 1) * chunkSize n - 1

/-- Membership of a nonce in worker i's range (inclusive bounds). -/
def inRangeW (n i x : Nat) : Prop := wStart n i ≤ x ∧ x ≤ wEnd n i

/-- Specification predicate for C1: every result ever sent carries the hex
digest of prefix + decimal(nonce) and satisfies the difficulty check. -/
def sentOK (cfg : MineCfg) (o : Option (Nat × List Nat)) : Prop :=
  ∀ n h, o = some (n, h) →
    h = hexEncode (sha256 (cfg.pb ++ decBytes n)) ∧ (targetZeros cfg).isPrefixOf h = true

/-- Number of results recorded as sent (zero or one). -/
def countSent : Option (Nat × List Nat) → Nat
  | none => 0
  | some _ => 1

/-- Accounting invariant for C3: the hash attempts performed so far split
into the flushed shared total, the unflushed local count, and the one
winning attempt (which the code never adds to local_hash_count);
results are only ever sent on the way out of the loop, and a halted
worker has flushed everything. -/
def acctInv (s : MineState) : Prop :=
  s.attempts = s.shared + s.localCnt + countSent s.sent ∧
  (s.halted = false → s.sent = none) ∧
  (s.halted = true → s.localCnt = 0)

/-- Scan invariant for C5 (no stop request, no wraparound): the scan has
visited exactly [start, nonce) and found no match there, and anything sent
is the least match of the range. -/
def scanInv (cfg : MineCfg) (start : Nat) (s : MineState) : Prop :=
  start ≤ s.nonce ∧
  (∀ m, start ≤ m → m < s.nonce → matchAt cfg m = false) ∧
  (s.sent = none ∨ ∃ n, s.sent = some (n, hexAt cfg n) ∧ matchAt cfg n = true ∧
    start ≤ n ∧ n ≤ cfg.endN ∧ ∀ m, start ≤ m → m < n → matchAt cfg m = false)

/-- ASCII codes of lowercase hexadecimal digits. -/
def isHexDigitCode (c : Nat) : Bool := (48 ≤ c && c ≤ 57) || (97 ≤ c && c ≤ 102)

/-- Concrete configuration: prefix "abc", difficulty 0, range ending at 0. -/
def cfgAbc0 : MineCfg := ⟨[97, 98, 99], 0, 0⟩

/-- Concrete configuration: empty prefix, difficulty 65 (unsatisfiable),
range ending at u64::MAX. -/
def cfgWrap : MineCfg := ⟨[], 65, 18446744073709551615⟩

/-- Concrete configuration: prefix "d", difficulty 1, range ending at
u64::MAX.  Chosen because sha256("d18446744073709551615") does not start
with '0' while sha256("d0") does. -/
def cfgOne : MineCfg := ⟨[100], 1, 18446744073709551615⟩

/-- Concrete configuration: prefix "abc", difficulty 65, range ending at 5. -/
def cfgHuge : MineCfg := ⟨[97, 98, 99], 65, 5⟩

/-
Helper lemmas.
-/

/-- Sanity check of the SHA-256 embedding against the FIPS 180 test vector
for "abc". -/
theorem sha256_vector_abc :
    hexEncode (sha256 (asciiBytes "abc")) =
      asciiBytes "ba7816bf8f01cfea414140de5dae2223b00361a396177a9cb410ff61f20015ad" := by
  decide

@[simp]
theorem exitFlush_sent (s : MineState) : (exitFlush s).sent = s.sent := rfl

@[simp]
theorem exitFlush_nonce (s : MineState) : (exitFlush s).nonce = s.nonce := rfl

@[simp]
theorem exitFlush_attempts (s : MineState) : (exitFlush s).attempts = s.attempts := rfl

@[simp]
theorem exitFlush_halted (s : MineState) : (exitFlush s).halted = true := rfl

@[simp]
theorem exitFlush_localCnt (s : MineState) : (exitFlush s).localCnt = 0 := rfl

theorem exitFlush_shared (s : MineState) : (exitFlush s).shared = s.shared + s.localCnt := by
  by_cases h : 0 < s.localCnt
  · simp [exitFlush, h]
  · simp only [exitFlush, if_neg h]
    omega

@[simp]
theorem hashHexOf_eq (cfg : MineCfg) (buf : List Nat) (n : Nat) :
    hashHexOf cfg buf n = hexAt cfg n := rfl

@[simp]
theorem bufAfter_eq (cfg : MineCfg) (buf : List Nat) (n : Nat) :
    bufAfter cfg buf n = [] := rfl

@[simp]
theorem nil_isPrefixOf_eq (l : List Nat) : (([] : List Nat).isPrefixOf l) = true := by
  cases l <;> rfl

theorem mineStep_halted (cfg : MineCfg) (flag : Nat → Bool) (s : MineState)
    (h : s.halted = true) : mineStep cfg flag s = s := by
  simp [mineStep, h]

theorem mineRun_halted (cfg : MineCfg) (flag : Nat → Bool) (fuel : Nat) (s : MineState)
    (h : s.halted = true) : mineRun cfg flag fuel s = s := by
  induction fuel with
  | zero => rfl
  | succ f ih => simp [mineRun, mineStep_halted cfg flag s h, ih]

theorem mineRun_add (cfg : MineCfg) (flag : Nat → Bool) (a b : Nat) (s : MineState) :
    mineRun cfg flag (a + b) s = mineRun cfg flag b (mineRun cfg flag a s) := by
  induction a generalizing s with
  | zero => rw [Nat.zero_add]; rfl
  | succ a ih =>
      rw [Nat.succ_add]
      show mineRun cfg flag (a + b) (mineStep cfg flag s) = _
      rw [ih]
      rfl

theorem mineRun_pres (cfg : MineCfg) (flag : Nat → Bool) (P : MineState → Prop)
    (hstep : ∀ s, P s → P (mineStep cfg flag s)) (fuel : Nat) :
    ∀ s, P s → P (mineRun cfg flag fuel s) := by
  induction fuel with
  | zero => exact fun s hs => hs
  | succ f ih => exact fun s hs => ih _ (hstep s hs)

/-
C4: the work partition.
-/

/-- C4: for every worker count between 1 and u64::MAX, the ranges produced by
the partitioning rule of main are pairwise disjoint and cover [0, u64::MAX]
exactly: no nonce lies in two distinct workers' ranges, and every nonce of
the 64-bit space lies in some worker's range. -/
theorem partition_disjoint_and_covers (n : Nat) (h1 : 1 ≤ n) (h2 : n < 18446744073709551616) :
    (∀ i j x, i < n → j < n → i ≠ j → inRangeW n i x → ¬ inRangeW n j x) ∧
    (∀ x, x ≤ 18446744073709551615 → ∃ i, i < n ∧ inRangeW n i x) := by
  have hc0 : 0 < chunkSize n := by
    have : n ≤ 18446744073709551615 := by omega
    exact Nat.lt_of_lt_of_le Nat.zero_lt_one ((Nat.one_le_div_iff (by omega)).mpr this)
  have key : ∀ i j x, i < j → j < n → inRangeW n i x → ¬ inRangeW n j x := by
    intro i j x hij hjn hxi hxj
    have hiN : i ≠ n - 1 := by omega
    have hi2 : x ≤ (i + 1) * chunkSize n - 1 := by
      have h := hxi.2
      unfold wEnd at h
      rwa [if_neg hiN] at h
    have hj1 : j * chunkSize n ≤ x := hxj.1
    have hmul : (i + 1) * chunkSize n ≤ j * chunkSize n :=
      Nat.mul_le_mul_right _ (by omega)
    have hpos : 0 < (i + 1) * chunkSize n := Nat.mul_pos (by omega) hc0
    omega
  refine ⟨?_, ?_⟩
  · intro i j x hi hj hne hxi hxj
    rcases Nat.lt_or_ge i j with h | h
    · exact key i j x h hj hxi hxj
    · have hji : j < i := by omega
      exact key j i x hji hi hxj hxi
  · intro x hx
    by_cases hq : x / chunkSize n < n - 1
    · have hstart : wStart n (x / chunkSize n) ≤ x := Nat.div_mul_le_self x (chunkSize n)
      have hend : x ≤ wEnd n (x / chunkSize n) := by
        unfold wEnd
        rw [if_neg (by omega : ¬ x / chunkSize n = n - 1)]
        have e1 : chunkSize n * (x / chunkSize n) + x % chunkSize n = x :=
          Nat.div_add_mod x (chunkSize n)
        have e2 : x % chunkSize n < chunkSize n := Nat.mod_lt _ hc0
        have e3 : (x / chunkSize n + 1) * chunkSize n
            = x / chunkSize n * chunkSize n + chunkSize n := Nat.succ_mul _ _
        have e4 : chunkSize n * (x / chunkSize n) = x / chunkSize n * chunkSize n :=
          Nat.mul_comm _ _
        omega
      exact ⟨x / chunkSize n, by omega, hstart, hend⟩
    · have hstart : wStart n (n - 1) ≤ x := by
        have hmul : (n - 1) * chunkSize n ≤ x / chunkSize n * chunkSize n :=
          Nat.mul_le_mul_right _ (by omega)
        have hds := Nat.div_mul_le_self x (chunkSize n)
        unfold wStart
        omega
      have hend : x ≤ wEnd n (n - 1) := by
        unfold wEnd
        rw [if_pos rfl]
        exact hx
      exact ⟨n - 1, by omega, hstart, hend⟩

/-- Witness for C4 at three workers. -/
theorem partition_disjoint_and_covers_witness :
    1 ≤ 3 ∧ 3 < 18446744073709551616 ∧
    ((∀ i j x, i < 3 → j < 3 → i ≠ j → inRangeW 3 i x → ¬ inRangeW 3 j x) ∧
     (∀ x, x ≤ 18446744073709551615 → ∃ i, i < 3 ∧ inRangeW 3 i x)) :=
  ⟨by decide, by decide, partition_disjoint_and_covers 3 (by decide) (by decide)⟩

/-
C1: validity of every sent result.
-/

theorem sentOK_step (cfg : MineCfg) (flag : Nat → Bool) (s : MineState)
    (hs : sentOK cfg s.sent) : sentOK cfg (mineStep cfg flag s).sent := by
  unfold mineStep
  split
  · exact hs
  split
  · split
    · exact hs
    · split
      next hcond =>
        intro n h hnh
        simp only [exitFlush_sent, Option.some.injEq, Prod.mk.injEq] at hnh
        obtain ⟨hn, hh⟩ := hnh
        subst hn
        subst hh
        exact ⟨rfl, hcond⟩
      · split
        · split
          · exact hs
          · exact hs
        · exact hs
  · exact hs

/-- C1: every result (nonce, hash_hex) that mine_range records as sent on
the channel carries exactly the lowercase hex encoding of SHA-256 over the
prefix bytes followed by the decimal string of the nonce, and that hex
string starts with at least difficulty many '0' characters.  This holds for
every prefix, difficulty, range, stop-flag behaviour and number of loop
iterations. -/
theorem mine_range_sends_valid_results (cfg : MineCfg) (flag : Nat → Bool)
    (start fuel n : Nat) (h : List Nat)
    (hsent : (mineRun cfg flag fuel (mineInit start)).sent = some (n, h)) :
    h = hexEncode (sha256 (cfg.pb ++ decBytes n)) ∧
    (targetZeros cfg).isPrefixOf h = true := by
  have base : sentOK cfg (mineInit start).sent := by
    intro n h hnh
    simp [mineInit] at hnh
  exact mineRun_pres cfg flag (fun s => sentOK cfg s.sent)
    (sentOK_step cfg flag) fuel (mineInit start) base n h hsent

/-- Witness for C1: with prefix "abc" and difficulty 0, the first iteration
sends (0, sha256 hex of "abc0"). -/
theorem mine_range_sends_valid_results_witness :
    (mineRun cfgAbc0 flagF 1 (mineInit 0)).sent
      = some (0, asciiBytes "56abfbd7d2ea606e667945422de5a368b8b0272b8f29081cb058b594dd7e3249") ∧
    (asciiBytes "56abfbd7d2ea606e667945422de5a368b8b0272b8f29081cb058b594dd7e3249"
        = hexEncode (sha256 (cfgAbc0.pb ++ decBytes 0)) ∧
     (targetZeros cfgAbc0).isPrefixOf
        (asciiBytes "56abfbd7d2ea606e667945422de5a368b8b0272b8f29081cb058b594dd7e3249") = true) :=
  ⟨by decide,
   mine_range_sends_valid_results cfgAbc0 flagF 0 1 0
     (asciiBytes "56abfbd7d2ea606e667945422de5a368b8b0272b8f29081cb058b594dd7e3249") (by decide)⟩

/-
C3: throughput accounting.
-/

theorem acctInv_step (cfg : MineCfg) (flag : Nat → Bool) (s : MineState)
    (hi : acctInv s) : acctInv (mineStep cfg flag s) := by
  obtain ⟨h1, h2, h3⟩ := hi
  unfold mineStep
  split
  next hhalt => exact ⟨h1, h2, h3⟩
  next hhalt =>
    have hsent : s.sent = none := h2 (by simpa using hhalt)
    rw [hsent] at h1
    simp only [countSent] at h1
    split
    · split
      · refine ⟨?_, by simp, by simp⟩
        simp [exitFlush_shared, hsent, countSent]
        omega
      · split
        · refine ⟨?_, by simp, by simp⟩
          simp [exitFlush_shared, countSent]
          omega
        · split
          · split
            · refine ⟨?_, by simp, by simp⟩
              simp [exitFlush_shared, hsent, countSent]
              omega
            · refine ⟨?_, fun _ => hsent, ?_⟩
              · simp [hsent, countSent]
                omega
              · intro hb
                exact absurd hb (by simpa using hhalt)
          · refine ⟨?_, fun _ => hsent, ?_⟩
            · simp [hsent, countSent]
              omega
            · intro hb
              exact absurd hb (by simpa using hhalt)
    · refine ⟨?_, by simp, by simp⟩
      simp [exitFlush_shared, hsent, countSent]
      omega

/-- C3 (amended): when mine_range's loop has exited, the total it flushed
into the shared counter equals the number of hash attempts it performed
minus the winning attempt: shared + 1 = attempts when a result was sent,
and shared = attempts otherwise.  (The code increments local_hash_count
only after the match check, so the winning attempt itself is never
counted.) -/
theorem mine_range_flushes_all_but_winner (cfg : MineCfg) (flag : Nat → Bool)
    (start fuel : Nat)
    (hh : (mineRun cfg flag fuel (mineInit start)).halted = true) :
    (mineRun cfg flag fuel (mineInit start)).shared
      + countSent (mineRun cfg flag fuel (mineInit start)).sent
      = (mineRun cfg flag fuel (mineInit start)).attempts := by
  have base : acctInv (mineInit start) := by
    refine ⟨by simp [mineInit, countSent], fun _ => rfl, ?_⟩
    intro hb
    simp [mineInit] at hb
  obtain ⟨h1, h2, h3⟩ :=
    mineRun_pres cfg flag acctInv (acctInv_step cfg flag) fuel (mineInit start) base
  have h4 := h3 hh
  omega

/-- Counterexample for C3 as stated: with prefix "abc", difficulty 0 and
range [0, 0], the loop exits having performed one hash attempt (the winning
one) yet having added nothing to the shared counter — the winning attempt is
lost from the total. -/
theorem winning_attempt_not_counted :
    mineRun cfgAbc0 flagF 1 (mineInit 0) =
      { nonce := 0, buf := [], localCnt := 0, shared := 0,
        sent := some (0,
          asciiBytes "56abfbd7d2ea606e667945422de5a368b8b0272b8f29081cb058b594dd7e3249"),
        reads := 1, attempts := 1, halted := true } := by
  decide

/-- Witness for the amended C3 at a run that exits by finding a match. -/
theorem mine_range_flushes_all_but_winner_witness :
    (mineRun cfgAbc0 flagF 1 (mineInit 0)).halted = true ∧
    ((mineRun cfgAbc0 flagF 1 (mineInit 0)).shared
      + countSent (mineRun cfgAbc0 flagF 1 (mineInit 0)).sent
      = (mineRun cfgAbc0 flagF 1 (mineInit 0)).attempts) :=
  ⟨by decide, mine_range_flushes_all_but_winner cfgAbc0 flagF 0 1 (by decide)⟩

/-
C2 and C5: behaviour at the top of the nonce range, and minimality of the
sent nonce.
-/

/-- C2: at the failing input (prefix "", difficulty 65, range
[u64::MAX, u64::MAX], stop flag never set) the loop body at
nonce = end = u64::MAX does not treat this as its final iteration: it
increments the nonce past u64::MAX, wrapping it to 0, and the loop is still
running.  This refutes the claimed no-wraparound behaviour of the code
(release builds wrap; debug builds panic on the overflow). -/
theorem mine_range_wraps_at_top_of_range :
    (mineInit 18446744073709551615).nonce = 18446744073709551615 ∧
    mineStep cfgWrap flagF (mineInit 18446744073709551615) =
      { nonce := 0, buf := [], localCnt := 1, shared := 0, sent := none,
        reads := 1, attempts := 1, halted := false } := by
  decide

theorem scanInv_step (cfg : MineCfg) (flag : Nat → Bool) (start : Nat) (s : MineState)
    (hend : cfg.endN < 18446744073709551615)
    (hflag : ∀ i, flag i = false)
    (hi : scanInv cfg start s) : scanInv cfg start (mineStep cfg flag s) := by
  obtain ⟨h1, h2, h3⟩ := hi
  unfold mineStep
  split
  · exact ⟨h1, h2, h3⟩
  split
  next hle =>
    split
    next hcond => rw [hflag] at hcond; exact absurd hcond (by simp)
    split
    next hcond =>
      exact ⟨h1, h2, Or.inr ⟨s.nonce, rfl, hcond, h1, hle, h2⟩⟩
    next hcond =>
      have hm : matchAt cfg s.nonce = false := by
        have hm' : ((targetZeros cfg).isPrefixOf (hashHexOf cfg s.buf s.nonce)) = false := by
          cases hb : (targetZeros cfg).isPrefixOf (hashHexOf cfg s.buf s.nonce)
          · rfl
          · exact absurd hb hcond
        exact hm'
      have hwrap : (s.nonce + 1) % 18446744073709551616 = s.nonce + 1 :=
        Nat.mod_eq_of_lt (by omega)
      have hAdv : start ≤ (s.nonce + 1) % 18446744073709551616 ∧
          (∀ m, start ≤ m → m < (s.nonce + 1) % 18446744073709551616 →
            matchAt cfg m = false) ∧
          (s.sent = none ∨ ∃ n, s.sent = some (n, hexAt cfg n) ∧ matchAt cfg n = true ∧
            start ≤ n ∧ n ≤ cfg.endN ∧ ∀ m, start ≤ m → m < n → matchAt cfg m = false) := by
        rw [hwrap]
        refine ⟨by omega, ?_, h3⟩
        intro m hm1 hm2
        rcases Nat.lt_or_ge m s.nonce with h | h
        · exact h2 m hm1 h
        · have hms : m = s.nonce := by omega
          rw [hms]
          exact hm
      split
      · split
        next hcond2 => rw [hflag] at hcond2; exact absurd hcond2 (by simp)
        · exact hAdv
      · exact hAdv
  · exact ⟨h1, h2, h3⟩

/-- C5 (amended): for every prefix, difficulty and range [start, end] with
end < u64::MAX (so the overflow of C2 cannot occur), if the stop flag is
never observed set, then any nonce that mine_range sends lies inside
[start, end], satisfies the match predicate, and no smaller candidate of
the range was skipped: every nonce of [start, n) fails the predicate, so n
is the smallest match of the range. -/
theorem mine_range_sends_least_in_range (cfg : MineCfg) (flag : Nat → Bool)
    (start fuel n : Nat) (h : List Nat)
    (hend : cfg.endN < 18446744073709551615)
    (hflag : ∀ i, flag i = false)
    (hsent : (mineRun cfg flag fuel (mineInit start)).sent = some (n, h)) :
    start ≤ n ∧ n ≤ cfg.endN ∧ matchAt cfg n = true ∧
    ∀ m, start ≤ m → m < n → matchAt cfg m = false := by
  have base : scanInv cfg start (mineInit start) := by
    refine ⟨Nat.le_refl _, ?_, Or.inl rfl⟩
    intro m hm1 hm2
    have hlt : m < start := hm2
    omega
  have hres := mineRun_pres cfg flag (scanInv cfg start)
    (fun s hi => scanInv_step cfg flag start s hend hflag hi) fuel (mineInit start) base
  rcases hres.2.2 with hnone | ⟨n', hsent', hm', hs', he', hmin'⟩
  · rw [hsent] at hnone
    exact absurd hnone (by simp)
  · rw [hsent] at hsent'
    simp only [Option.some.injEq, Prod.mk.injEq] at hsent'
    obtain ⟨hn, _⟩ := hsent'
    rw [hn]
    exact ⟨hs', he', hm', hmin'⟩

set_option maxHeartbeats 2000000 in
/-- Counterexample for C5 as stated: with prefix "d", difficulty 1 and range
[u64::MAX, u64::MAX], the single nonce of the range does not match, yet
after wrapping past u64::MAX the loop sends nonce 0 — a nonce outside the
range, so certainly not the smallest matching nonce of the range. -/
theorem mine_range_escapes_its_range :
    ((mineRun cfgOne flagF 2 (mineInit 18446744073709551615)).sent.map Prod.fst
      = some 0) ∧
    0 < 18446744073709551615 ∧
    matchAt cfgOne 18446744073709551615 = false := by
  decide

/-- Witness for the amended C5 at prefix "abc", difficulty 0, range [0, 0]. -/
theorem mine_range_sends_least_in_range_witness :
    cfgAbc0.endN < 18446744073709551615 ∧
    ((0 : Nat) ≤ 0 ∧ 0 ≤ cfgAbc0.endN ∧ matchAt cfgAbc0 0 = true ∧
     ∀ m, 0 ≤ m → m < 0 → matchAt cfgAbc0 m = false) :=
  ⟨by decide,
   mine_range_sends_least_in_range cfgAbc0 flagF 0 1 0
     (asciiBytes "56abfbd7d2ea606e667945422de5a368b8b0272b8f29081cb058b594dd7e3249")
     (by decide) (fun _ => rfl) (by decide)⟩

/-
C6: promptness of termination once the stop flag is set.
-/

/-- C6: from any loop state whose future stop-flag loads all return true
(the flag has been set by another worker), mine_range performs at most one
batch's worth (100,000) of further hash attempts before its scan loop
exits; in fact the very next while-condition check observes the flag, so
the loop halts after the next step with no further attempt. -/
theorem stop_flag_bounds_further_attempts (cfg : MineCfg) (flag : Nat → Bool)
    (s : MineState) (fuel : Nat)
    (hflag : ∀ i, s.reads ≤ i → flag i = true) :
    (mineRun cfg flag fuel s).attempts ≤ s.attempts + 100000 ∧
    (1 ≤ fuel → (mineRun cfg flag fuel s).halted = true) := by
  by_cases hh : s.halted = true
  · rw [mineRun_halted cfg flag fuel s hh]
    exact ⟨by omega, fun _ => hh⟩
  · have hstep : (mineStep cfg flag s).halted = true ∧
        (mineStep cfg flag s).attempts = s.attempts := by
      unfold mineStep
      rw [if_neg hh]
      by_cases hle : s.nonce ≤ cfg.endN
      · rw [if_pos hle, hflag s.reads (Nat.le_refl _)]
        exact ⟨rfl, rfl⟩
      · rw [if_neg hle]
        exact ⟨rfl, rfl⟩
    cases fuel with
    | zero =>
        refine ⟨?_, fun h0 => absurd h0 (by omega)⟩
        show s.attempts ≤ s.attempts + 100000
        omega
    | succ f =>
        have hrun : mineRun cfg flag (f + 1) s = mineStep cfg flag s := by
          show mineRun cfg flag f (mineStep cfg flag s) = _
          exact mineRun_halted cfg flag f _ hstep.1
        rw [hrun, hstep.2]
        exact ⟨by omega, fun _ => hstep.1⟩

/-- Witness for C6 with the stop flag already set at every load. -/
theorem stop_flag_bounds_further_attempts_witness :
    (mineRun cfgAbc0 flagT 1 (mineInit 0)).attempts ≤ (mineInit 0).attempts + 100000 ∧
    (1 ≤ 1 → (mineRun cfgAbc0 flagT 1 (mineInit 0)).halted = true) :=
  stop_flag_bounds_further_attempts cfgAbc0 flagT (mineInit 0) 1 (fun _ _ => rfl)

/-
C7: difficulty 0 accepts the first candidate.
-/

/-- C7: with difficulty 0 the target string is empty, so the match
predicate holds for every prefix and every nonce; consequently mine_range,
started on any range with start ≤ end whose first stop-flag load returns
false, sends its very first candidate (nonce = start, with its hex digest)
and exits after exactly one hash attempt. -/
theorem difficulty_zero_accepts_first (cfg : MineCfg) (flag : Nat → Bool)
    (start fuel : Nat) (hd : cfg.diff = 0) (h0 : flag 0 = false)
    (hs : start ≤ cfg.endN) (hf : 1 ≤ fuel) :
    (∀ n, matchAt cfg n = true) ∧
    (mineRun cfg flag fuel (mineInit start)).sent = some (start, hexAt cfg start) ∧
    (mineRun cfg flag fuel (mineInit start)).attempts = 1 := by
  have hmatch : ∀ n, matchAt cfg n = true := by
    intro n
    unfold matchAt targetZeros
    rw [hd]
    exact nil_isPrefixOf_eq _
  have hml : ¬ (mineInit start).halted = true := by simp [mineInit]
  have hno : (mineInit start).nonce ≤ cfg.endN := hs
  have hfl : ¬ (flag (mineInit start).reads = true) := by
    have hr : (mineInit start).reads = 0 := rfl
    rw [hr, h0]
    simp
  have hm : ((targetZeros cfg).isPrefixOf
      (hashHexOf cfg (mineInit start).buf (mineInit start).nonce)) = true :=
    hmatch start
  have hstep : mineStep cfg flag (mineInit start) = exitFlush { mineInit start with
      reads := (mineInit start).reads + 1,
      buf := bufAfter cfg (mineInit start).buf (mineInit start).nonce,
      attempts := (mineInit start).attempts + 1,
      sent := some ((mineInit start).nonce,
        hashHexOf cfg (mineInit start).buf (mineInit start).nonce) } := by
    unfold mineStep
    rw [if_neg hml, if_pos hno, if_neg hfl, if_pos hm]
  obtain ⟨f, rfl⟩ : ∃ f, fuel = f + 1 := ⟨fuel - 1, by omega⟩
  have hrun : mineRun cfg flag (f + 1) (mineInit start) = mineStep cfg flag (mineInit start) := by
    show mineRun cfg flag f (mineStep cfg flag (mineInit start)) = _
    exact mineRun_halted cfg flag f _ (by rw [hstep]; simp)
  refine ⟨hmatch, ?_, ?_⟩
  · rw [hrun, hstep]
    rfl
  · rw [hrun, hstep]
    rfl

/-- Witness for C7 at prefix "abc", difficulty 0, range [0, 0]. -/
theorem difficulty_zero_accepts_first_witness :
    cfgAbc0.diff = 0 ∧ flagF 0 = false ∧ (0 : Nat) ≤ cfgAbc0.endN ∧
    ((∀ n, matchAt cfgAbc0 n = true) ∧
     (mineRun cfgAbc0 flagF 1 (mineInit 0)).sent = some (0, hexAt cfgAbc0 0) ∧
     (mineRun cfgAbc0 flagF 1 (mineInit 0)).attempts = 1) :=
  ⟨rfl, rfl, by decide,
   difficulty_zero_accepts_first cfgAbc0 flagF 0 1 rfl rfl (by decide) (by decide)⟩

/-
C8: the shared counter never decreases.
-/

theorem mineStep_shared_le (cfg : MineCfg) (flag : Nat → Bool) (s : MineState) :
    s.shared ≤ (mineStep cfg flag s).shared := by
  unfold mineStep
  repeat' split
  all_goals simp [exitFlush_shared]

theorem mineRun_shared_le (cfg : MineCfg) (flag : Nat → Bool) (k : Nat) :
    ∀ s : MineState, s.shared ≤ (mineRun cfg flag k s).shared := by
  induction k with
  | zero => exact fun s => Nat.le_refl _
  | succ f ih =>
      intro s
      exact Nat.le_trans (mineStep_shared_le cfg flag s) (ih (mineStep cfg flag s))

/-- C8: the worker's additions to SharedHashCounter are all of the form
fetch_add of a non-negative batch, so the counter value observed after any
number of loop steps is at least the value observed after any earlier
number of steps — sampling the shared counter at increasing times never
shows a decrease, from any state and under any stop-flag behaviour. -/
theorem shared_counter_never_decreases (cfg : MineCfg) (flag : Nat → Bool)
    (s : MineState) (f1 f2 : Nat) (h : f1 ≤ f2) :
    (mineRun cfg flag f1 s).shared ≤ (mineRun cfg flag f2 s).shared := by
  obtain ⟨k, rfl⟩ := Nat.exists_eq_add_of_le h
  rw [mineRun_add]
  exact mineRun_shared_le cfg flag k _

/-- Witness for C8 at a one-step run. -/
theorem shared_counter_never_decreases_witness :
    (0 : Nat) ≤ 1 ∧
    (mineRun cfgAbc0 flagT 0 (mineInit 0)).shared ≤
      (mineRun cfgAbc0 flagT 1 (mineInit 0)).shared :=
  ⟨by decide, shared_counter_never_decreases cfgAbc0 flagT (mineInit 0) 0 1 (by decide)⟩

/-
C9: purity of the hashing pipeline.
-/

/-- C9: the loop body's digest computation is a pure function of the prefix
and the nonce alone: whatever bytes the reused hasher held before the
reset/update/finalize_reset pipeline runs, the resulting hash_hex is the
same — namely the hex digest of prefix + decimal(nonce) — the match
predicate's outcome is the same, and the hasher is left in the same
(empty) state.  Two evaluations at the same inputs therefore always agree. -/
theorem match_predicate_pure (cfg : MineCfg) (buf1 buf2 : List Nat) (n : Nat) :
    hashHexOf cfg buf1 n = hashHexOf cfg buf2 n ∧
    hashHexOf cfg buf1 n = hexEncode (sha256 (cfg.pb ++ decBytes n)) ∧
    ((targetZeros cfg).isPrefixOf (hashHexOf cfg buf1 n)
      = (targetZeros cfg).isPrefixOf (hashHexOf cfg buf2 n)) ∧
    bufAfter cfg buf1 n = bufAfter cfg buf2 n :=
  ⟨rfl, rfl, rfl, rfl⟩

/-
C10: the hex digest always has exactly 64 hexadecimal characters.
-/

theorem wordBE_lt (w : Nat) : ∀ b ∈ wordBE w, b < 256 := by
  intro b hb
  simp only [wordBE, List.mem_cons, List.not_mem_nil, or_false] at hb
  rcases hb with rfl | rfl | rfl | rfl <;> exact Nat.mod_lt _ (by norm_num)

theorem hash8ToBytes_lt (hv : Hash8) : ∀ b ∈ hash8ToBytes hv, b < 256 := by
  have happ : ∀ (l1 l2 : List Nat), (∀ b ∈ l1, b < 256) → (∀ b ∈ l2, b < 256) →
      ∀ b ∈ l1 ++ l2, b < 256 := by
    intro l1 l2 h1 h2 b hb
    rcases List.mem_append.mp hb with h | h
    · exact h1 b h
    · exact h2 b h
  exact happ _ _ (wordBE_lt _) (happ _ _ (wordBE_lt _) (happ _ _ (wordBE_lt _)
    (happ _ _ (wordBE_lt _) (happ _ _ (wordBE_lt _) (happ _ _ (wordBE_lt _)
    (happ _ _ (wordBE_lt _) (wordBE_lt _)))))))

theorem sha256_bytes_lt (msg : List Nat) : ∀ b ∈ sha256 msg, b < 256 :=
  hash8ToBytes_lt _

theorem hexAt_length (cfg : MineCfg) (n : Nat) : (hexAt cfg n).length = 64 := rfl

theorem hexEncode_all_hex (bs : List Nat) (hbs : ∀ b ∈ bs, b < 256) :
    ∀ c ∈ hexEncode bs, isHexDigitCode c = true := by
  intro c hc
  unfold hexEncode at hc
  rw [List.mem_flatMap] at hc
  obtain ⟨b, hb, hcb⟩ := hc
  have hlt := hbs b hb
  have h16a : b / 16 < 16 := by omega
  have h16b : b % 16 < 16 := by omega
  have hdig : ∀ m, m < 16 → isHexDigitCode (hexDigitCode m) = true := by decide
  simp only [List.mem_cons, List.not_mem_nil, or_false] at hcb
  rcases hcb with rfl | rfl
  · exact hdig _ h16a
  · exact hdig _ h16b

theorem isPrefixOf_length_le (l1 : List Nat) :
    ∀ l2 : List Nat, l1.isPrefixOf l2 = true → l1.length ≤ l2.length := by
  induction l1 with
  | nil => intro l2 _; simp
  | cons a as ih =>
      intro l2 h
      cases l2 with
      | nil => exact absurd h (by simp [List.isPrefixOf])
      | cons b bs =>
          have h2 : (a == b && as.isPrefixOf bs) = true := h
          simp only [Bool.and_eq_true] at h2
          simpa using Nat.succ_le_succ (ih bs h2.2)

theorem matchAt_false_of_diff_gt (cfg : MineCfg) (n : Nat) (hd : 64 < cfg.diff) :
    matchAt cfg n = false := by
  cases ht : matchAt cfg n
  · rfl
  · exfalso
    unfold matchAt at ht
    have hlen := isPrefixOf_length_le _ _ ht
    rw [hexAt_length] at hlen
    have hrep : (targetZeros cfg).length = cfg.diff := by
      simp [targetZeros]
    omega

theorem sent_none_step (cfg : MineCfg) (flag : Nat → Bool)
    (hall : ∀ m, matchAt cfg m = false) (s : MineState)
    (h : s.sent = none) : (mineStep cfg flag s).sent = none := by
  unfold mineStep
  split
  · exact h
  split
  · split
    · exact h
    · split
      next hcond =>
        exfalso
        have hfalse : ((targetZeros cfg).isPrefixOf (hashHexOf cfg s.buf s.nonce)) = false :=
          hall s.nonce
        rw [hcond] at hfalse
        exact Bool.noConfusion hfalse
      · split
        · split
          · exact h
          · exact h
        · exact h
  · exact h

/-- C10: for every prefix and nonce the computed hash_hex has exactly 64
characters, each a lowercase hexadecimal digit (SHA-256 yields 32 bytes,
rendered as two hex characters each); consequently for every difficulty
greater than 64 the match predicate is false at every nonce and mine_range
never sends a result, whatever the range, stop-flag behaviour and number
of iterations. -/
theorem hash_hex_is_64_hex_digits (cfg : MineCfg) (flag : Nat → Bool)
    (n start fuel : Nat) :
    (hexAt cfg n).length = 64 ∧
    (∀ c ∈ hexAt cfg n, isHexDigitCode c = true) ∧
    (64 < cfg.diff → matchAt cfg n = false ∧
      (mineRun cfg flag fuel (mineInit start)).sent = none) := by
  refine ⟨hexAt_length cfg n, ?_, ?_⟩
  · exact hexEncode_all_hex _ (sha256_bytes_lt _)
  · intro hd
    refine ⟨matchAt_false_of_diff_gt cfg n hd, ?_⟩
    exact mineRun_pres cfg flag (fun s => s.sent = none)
      (sent_none_step cfg flag (fun m => matchAt_false_of_diff_gt cfg m hd))
      fuel (mineInit start) rfl

/-- Witness for C10 at prefix "abc", difficulty 65, nonce 0. -/
theorem hash_hex_is_64_hex_digits_witness :
    64 < cfgHuge.diff ∧
    (hexAt cfgHuge 0).length = 64 ∧
    matchAt cfgHuge 0 = false ∧
    (mineRun cfgHuge flagF 1 (mineInit 0)).sent = none :=
  ⟨by decide, (hash_hex_is_64_hex_digits cfgHuge flagF 0 0 1).1,
   ((hash_hex_is_64_hex_digits cfgHuge flagF 0 0 1).2.2 (by decide)).1,
   ((hash_hex_is_64_hex_digits cfgHuge flagF 0 0 1).2.2 (by decide)).2⟩
